import Mathlib

/-!
Verification development for the core rewrite engine of a polyglot
structural code-transformation tool (the piranha rule engine).

The Rust sources embedded here are src/models/constraint.rs and
src/models/source_code_unit.rs. External collaborators (the tree-sitter
library, the query engine, the rule graph and the rule store) are not part
of the sources; they are modelled from the specification, either as
concrete definitions carrying a doc comment that names what they model, or
as oracle function parameters bundled in structures.

Conventions of the embedding:
  - byte positions are Nat; source text is a list of characters and byte
    indexing coincides with character indexing (single-byte characters);
  - fallible Rust code (panic) is an Except value;
  - usize subtraction, where the Rust code could underflow, is additionally
    modelled by a checked variant returning Except;
  - hash maps keyed by strings are association lists, where the entry
    added last wins on lookup.
-/

namespace Piranha

/-- Row and column of a position in the source text, as in tree-sitter. -/
structure Point where
  row : Nat
  column : Nat
deriving DecidableEq, Repr

/-- Byte range of a node or a code snippet, as in tree-sitter. -/
structure TSRange where
  start_byte : Nat
  end_byte : Nat
  start_point : Point
  end_point : Point
deriving DecidableEq, Repr

/-- Compiled structural queries are cached by their textual key, so a query
is identified with its text. -/
abbrev TSQuery := String

/-- Substitution environment: a mapping from capture name to snippet.
Modelled as an association list; lookup takes the first entry. -/
abbrev Subst := List (String × String)

/-- Entry-wise insertion of the map t into the map s, as HashMap extend in
the source: entries of t override entries of s. -/
def Subst.extend (s t : Subst) : Subst := t ++ s

/-- Key membership in a substitution environment. -/
def Subst.hasKey (s : Subst) (k : String) : Bool := (s.lookup k).isSome

/-- Whitespace test used by the trim model (space, newline, tab, carriage
return). -/
def isWSChar (c : Char) : Bool := c = ' ' || c = '\n' || c = '\t' || c = '\r'

/-- Model of str trim of Rust on character lists. -/
def trimChars (cs : List Char) : List Char :=
  ((cs.dropWhile isWSChar).reverse.dropWhile isWSChar).reverse

/-- The substring of the text covering the byte interval from a to b. -/
def sliceChars (cs : List Char) (a b : Nat) : List Char := (cs.drop a).take (b - a)

/-- Match of a rule or a constraint query, as in models/matches.rs: the
matched text, its range and the named capture bindings. -/
structure PMatch where
  matched_string : List Char
  range : TSRange
  matchesMap : Subst
deriving DecidableEq, Repr

/-- A planned or applied rewrite, from models/edit.rs. -/
structure Edit where
  p_match : PMatch
  replacement_string : List Char
  matched_rule : String
deriving DecidableEq, Repr

/-- Modelled from the spec: the predicate deciding that an edit is a
delete (Edit is_delete is not among the sources). The spec states an edit
is a delete iff the replacement text is empty after trimming. -/
def Edit.is_delete (e : Edit) : Bool := (trimChars e.replacement_string).isEmpty

/-- An ancestor-anchored constraint of a rule, from models/constraint.rs:
a matcher query locating the enclosing scope and a list of queries that
must not match inside that scope. -/
structure Constraint where
  matcher : String
  queries : List String
deriving DecidableEq, Repr

/-- A rule whose query and replacement have had all known substitutions
interpolated. Only the parts of models/rule.rs that the embedded sources
consume are kept: the name, the match-only test, and the constraints. -/
structure InstantiatedRule where
  name : String
  is_match_only_rule : Bool
  constraints : List Constraint
deriving DecidableEq, Repr

/-- The rule store part visible to the embedded sources: the set of global
rules seeded during the run. The query cache and the run arguments are
behaviourally irrelevant here. -/
structure RuleStore where
  global_rules : List InstantiatedRule
deriving DecidableEq, Repr

mutual
/-- Modelled from the spec: a syntax tree node (the tree-sitter Tree and
Node types are external). A node carries its byte range, an error flag and
its ordered children. -/
inductive STree where
  | node (range : TSRange) (isErr : Bool) (children : SForest)
deriving DecidableEq, Repr
/-- Ordered forest of sibling subtrees of a node. -/
inductive SForest where
  | nil
  | cons (t : STree) (rest : SForest)
deriving DecidableEq, Repr
end

/-- Byte range of the root node of a subtree. -/
def STree.range : STree → TSRange
  | .node r _ _ => r

mutual
/-- Modelled from the spec: has_error of tree-sitter, true iff any node of
the tree is an error node. -/
def STree.hasError : STree → Bool
  | .node _ e cs => e || cs.hasError
/-- Error test on a forest. -/
def SForest.hasError : SForest → Bool
  | .nil => false
  | .cons t rest => t.hasError || rest.hasError
end

mutual
/-- Modelled from the spec: the post-order traversal of a subtree used by
the comma lookups (the tree-sitter-traversal crate is external). Returns
the byte ranges of all nodes, children before their parent. -/
def STree.postOrderRanges : STree → List TSRange
  | .node r _ cs => cs.postOrderRanges ++ [r]
/-- Post-order traversal of a forest. -/
def SForest.postOrderRanges : SForest → List TSRange
  | .nil => []
  | .cons t rest => t.postOrderRanges ++ rest.postOrderRanges
end

/-- Does the byte range of a node span the byte interval from s to e, in
the sense of tree-sitter node containment. -/
def spansB (r : TSRange) (s e : Nat) : Bool :=
  decide (r.start_byte ≤ s) && decide (e ≤ r.end_byte)

mutual
/-- Descent step of the descendant lookup: starting at a node known to
span the interval, repeatedly move into the first child spanning it.
Returns the node reached together with its parent. -/
def descendFrom (s e : Nat) : STree → Option STree → (STree × Option STree)
  | t@(.node _ _ cs), p => descendForest s e cs t p
/-- Scan of the children during the descent. -/
def descendForest (s e : Nat) : SForest → STree → Option STree → (STree × Option STree)
  | .nil, t, p => (t, p)
  | .cons c rest, t, p =>
      if spansB c.range s e then descendFrom s e c (some t)
      else descendForest s e rest t p
end

/-- Modelled from the spec: descendant_for_byte_range of tree-sitter, the
smallest node of the tree spanning the given byte interval, here paired
with its parent so that the parent lookup of the source can be read off.
None when the root itself does not span the interval. -/
def descendantWithParent (t : STree) (s e : Nat) : Option (STree × Option STree) :=
  if spansB t.range s e then some (descendFrom s e t none) else none

/-- Modelled from the spec: get_node_for_range, the smallest node fully
covering the byte interval; falls back to the root when the interval is
not inside the root. -/
def get_node_for_range (t : STree) (s e : Nat) : STree :=
  match descendantWithParent t s e with
  | some np => np.1
  | none => t

/-- The source code unit of models/source_code_unit.rs: one file with its
current tree, text, substitution cache, rewrite history and match history.
Of the run arguments only the cleanup_comments flag is consumed by the
embedded code paths. -/
structure SourceCodeUnit where
  ast : STree
  code : List Char
  substitutions : Subst
  rewrites : List Edit
  matchesFound : List (String × PMatch)
  cleanup_comments : Bool
deriving DecidableEq, Repr

/-- The comma test _is_comma of source_code_unit.rs: the node text,
trimmed, equals a comma. -/
def SourceCodeUnit._is_comma (scu : SourceCodeUnit) (r : TSRange) : Bool :=
  trimChars (sliceChars scu.code r.start_byte r.end_byte) = [',']

/-- Minimum of a list under a Nat key, keeping the last of equally minimal
elements, as Iterator min_by of Rust. -/
def minByNat (key : TSRange → Nat) : List TSRange → Option TSRange
  | [] => none
  | x :: xs => some (xs.foldl (fun a b => if key a < key b then a else b) x)

/-- Checked model of usize subtraction: Except on underflow, as a Rust
debug-build panic. -/
def checkedSub (a b : Nat) : Except String Nat :=
  if b ≤ a then Except.ok (a - b) else Except.error "attempt to subtract with overflow"

/-- Comparison step of the checked minimum: both keys are evaluated, as
the Rust comparator does, and a failing key aborts. -/
def minStepChecked (key : TSRange → Except String Nat) (a b : TSRange) :
    Except String TSRange :=
  match key a with
  | Except.error e => Except.error e
  | Except.ok ka =>
      match key b with
      | Except.error e => Except.error e
      | Except.ok kb => Except.ok (if ka < kb then a else b)

/-- Minimum of a list under a key that may fail, propagating the failure,
used to model the comparator subtractions of the comma lookups. -/
def minByNatChecked (key : TSRange → Except String Nat) :
    List TSRange → Except String (Option TSRange)
  | [] => Except.ok none
  | x :: xs =>
      match xs.foldlM (minStepChecked key) x with
      | Except.error e => Except.error e
      | Except.ok r => Except.ok (some r)

/-- get_trailing_comma of source_code_unit.rs: the node immediately after
the deleted range, if its trimmed text is a comma. The parent of the
smallest node spanning the interval from end_byte to end_byte plus one is
traversed post-order; among its nodes starting at or after end_byte the
one with minimal distance start_byte minus end_byte is inspected. -/
def get_trailing_comma (scu : SourceCodeUnit) (edit : Edit) : Option TSRange :=
  let deleted_range := edit.p_match.range
  match (descendantWithParent scu.ast deleted_range.end_byte (deleted_range.end_byte + 1)).bind
      (fun np => np.2) with
  | some parent_node =>
      match minByNat (fun n => n.start_byte - deleted_range.end_byte)
          ((parent_node.postOrderRanges).filter
            (fun n => decide (deleted_range.end_byte ≤ n.start_byte))) with
      | some next_node => if scu._is_comma next_node then some next_node else none
      | none => none
  | none => none

/-- Variant of get_trailing_comma in which every subtraction the Rust code
performs on usize is checked for underflow. -/
def get_trailing_comma_checked (scu : SourceCodeUnit) (edit : Edit) :
    Except String (Option TSRange) :=
  let deleted_range := edit.p_match.range
  match (descendantWithParent scu.ast deleted_range.end_byte (deleted_range.end_byte + 1)).bind
      (fun np => np.2) with
  | some parent_node =>
      match minByNatChecked (fun n => checkedSub n.start_byte deleted_range.end_byte)
          ((parent_node.postOrderRanges).filter
            (fun n => decide (deleted_range.end_byte ≤ n.start_byte))) with
      | Except.error e => Except.error e
      | Except.ok (some next_node) =>
          Except.ok (if scu._is_comma next_node then some next_node else none)
      | Except.ok none => Except.ok none
  | none => Except.ok none

/-- get_leading_comma of source_code_unit.rs: the node immediately before
the deleted range, if its trimmed text is a comma. The second endpoint of
the descendant lookup is guarded so that a range starting at byte zero
does not underflow. Among the nodes of the parent ending at or before
start_byte, the one with minimal distance start_byte minus end_byte is
inspected. -/
def get_leading_comma (scu : SourceCodeUnit) (edit : Edit) : Option TSRange :=
  let deleted_range := edit.p_match.range
  let prevPos := if deleted_range.start_byte = 0 then 0 else deleted_range.start_byte - 1
  match (descendantWithParent scu.ast deleted_range.start_byte prevPos).bind
      (fun np => np.2) with
  | some parent_node =>
      match minByNat (fun n => deleted_range.start_byte - n.end_byte)
          ((parent_node.postOrderRanges).filter
            (fun n => decide (n.end_byte ≤ deleted_range.start_byte))) with
      | some previous_node => if scu._is_comma previous_node then some previous_node else none
      | none => none
  | none => none

/-- Variant of get_leading_comma in which every subtraction the Rust code
performs on usize is checked for underflow, including the guarded
computation of the byte directly before the deleted range. -/
def get_leading_comma_checked (scu : SourceCodeUnit) (edit : Edit) :
    Except String (Option TSRange) :=
  let deleted_range := edit.p_match.range
  match (if deleted_range.start_byte = 0 then Except.ok 0
      else checkedSub deleted_range.start_byte 1) with
  | Except.error e => Except.error e
  | Except.ok prevPos =>
      match (descendantWithParent scu.ast deleted_range.start_byte prevPos).bind
          (fun np => np.2) with
      | some parent_node =>
          match minByNatChecked (fun n => checkedSub deleted_range.start_byte n.end_byte)
              ((parent_node.postOrderRanges).filter
                (fun n => decide (n.end_byte ≤ deleted_range.start_byte))) with
          | Except.error e => Except.error e
          | Except.ok (some previous_node) =>
              Except.ok (if scu._is_comma previous_node then some previous_node else none)
          | Except.ok none => Except.ok none
      | none => Except.ok none

/-- delete_trailing_comma of source_code_unit.rs: widen a delete edit to
absorb the closest trailing comma, or failing that the closest leading
comma, and rebuild the edit with the widened range, the covered text, and
the original captures, replacement and rule name. -/
def delete_trailing_comma (scu : SourceCodeUnit) (edit : Edit) : Edit :=
  let r0 := edit.p_match.range
  let new_deleted_range :=
    match get_trailing_comma scu edit with
    | some next_node_range =>
        { r0 with end_byte := next_node_range.end_byte,
                  end_point := next_node_range.end_point }
    | none =>
        match get_leading_comma scu edit with
        | some prev_node_range =>
            { r0 with start_byte := prev_node_range.start_byte,
                      start_point := prev_node_range.start_point }
        | none => r0
  Edit.mk
    (PMatch.mk
      (sliceChars scu.code new_deleted_range.start_byte new_deleted_range.end_byte)
      new_deleted_range
      edit.p_match.matchesMap)
    edit.replacement_string
    edit.matched_rule

/-- Structured text edit handed to the incremental parser, as the
tree-sitter InputEdit. -/
structure InputEdit where
  start_byte : Nat
  old_end_byte : Nat
  new_end_byte : Nat
  start_point : Point
  old_end_point : Point
  new_end_point : Point
deriving DecidableEq, Repr

/-- Row and column of a byte position of a text, used to rebuild the end
point of a replacement. -/
def posToPoint (cs : List Char) (pos : Nat) : Point :=
  Point.mk ((cs.take pos).count '\n')
    (((cs.take pos).reverse.takeWhile (fun c => !(c = '\n'))).length)

/-- Modelled from the spec: get_tree_sitter_edit of the tree-sitter
utilities (not among the sources). Splices the replacement into the text
at the edit range and produces the structured tree edit whose new end is
the range start plus the replacement length. -/
def get_tree_sitter_edit (code : List Char) (edit : Edit) : (List Char × InputEdit) :=
  ((code.take edit.p_match.range.start_byte) ++ edit.replacement_string
      ++ (code.drop edit.p_match.range.end_byte),
   InputEdit.mk edit.p_match.range.start_byte edit.p_match.range.end_byte
     (edit.p_match.range.start_byte + edit.replacement_string.length)
     edit.p_match.range.start_point edit.p_match.range.end_point
     (posToPoint ((code.take edit.p_match.range.start_byte) ++ edit.replacement_string
        ++ (code.drop edit.p_match.range.end_byte))
       (edit.p_match.range.start_byte + edit.replacement_string.length)))

/-- Modelled from the spec: get_replace_range of the tree-sitter
utilities, the range the replacement occupies after the edit. -/
def get_replace_range (ie : InputEdit) : TSRange :=
  TSRange.mk ie.start_byte ie.new_end_byte ie.start_point ie.new_end_point

/-- Oracles for the collaborators of the embedded sources that are not
themselves among the sources: the parser, the comment-cleanup helper, the
query engine entry points of the rule module, and the rule graph. Each
field follows the interface the specification gives for it. -/
structure Oracles where
  parseFn : List Char → STree
  deleteAssociatedComment : SourceCodeUnit → Edit → Option (InputEdit × SourceCodeUnit)
  getMatchForQuery : STree → List Char → TSQuery → Bool → Option PMatch
  getEdit : SourceCodeUnit → RuleStore → InstantiatedRule → STree → Option Edit
  getMatches : SourceCodeUnit → RuleStore → InstantiatedRule → STree → List PMatch
  getEditForContext : SourceCodeUnit → RuleStore → Nat → Nat →
    List InstantiatedRule → Option Edit
  getNextRulesByScope : String → Subst → List (String × List InstantiatedRule)
  getScopeQuery : SourceCodeUnit → String → Nat → Nat → TSQuery

/-- The edit apply_edit actually applies: a delete is first widened by
comma absorption, any other edit is applied unchanged. -/
def applied_edit_of (scu : SourceCodeUnit) (edit0 : Edit) : Edit :=
  if edit0.is_delete then delete_trailing_comma scu edit0 else edit0

/-- The text of the unit after splicing in the applied edit. -/
def new_code_of (scu : SourceCodeUnit) (edit0 : Edit) : List Char :=
  (get_tree_sitter_edit scu.code (applied_edit_of scu edit0)).1

/-- apply_edit of source_code_unit.rs: absorb a neighboring comma if the
edit deletes, splice the replacement into the text, re-parse, abort the
run when the re-parsed tree contains an error node (surfacing the
corrupted text), and otherwise optionally delete an associated comment.
Returns the structured edit performed and the updated unit. -/
def apply_edit (orc : Oracles) (scu : SourceCodeUnit) (edit0 : Edit) :
    Except String (InputEdit × SourceCodeUnit) :=
  let edit := applied_edit_of scu edit0
  let new_source_code := new_code_of scu edit0
  let scu1 : SourceCodeUnit :=
    { scu with ast := orc.parseFn new_source_code, code := new_source_code }
  if scu1.ast.hasError then
    Except.error ("Produced syntactically incorrect source code " ++ String.mk scu1.code)
  else if edit.is_delete && scu1.cleanup_comments then
    match orc.deleteAssociatedComment scu1 edit with
    | some r => Except.ok r
    | none => Except.ok ((get_tree_sitter_edit scu.code edit).2, scu1)
  else Except.ok ((get_tree_sitter_edit scu.code edit).2, scu1)

/-- Modelled from the spec: the scope tag of Parent-scoped successor
edges of the rule graph (the rule_graph module is not among the
sources). -/
def PARENT : String := "Parent"

/-- Modelled from the spec: the scope tag of Global successor edges. -/
def GLOBAL : String := "Global"

/-- Lookup of a scope bucket in the map of next rules grouped by scope;
an absent scope has no rules. -/
def scopesGet (m : List (String × List InstantiatedRule)) (k : String) :
    List InstantiatedRule :=
  match m.lookup k with
  | some v => v
  | none => []

/-- Front insertion of a batch of pairs, one after the other, as repeated
push_front on the deque of queued scoped rules. -/
def push_front_all (xs stack : List (TSQuery × InstantiatedRule)) :
    List (TSQuery × InstantiatedRule) :=
  match xs with
  | [] => stack
  | x :: rest => push_front_all rest (x :: stack)

/-- add_rules_to_stack of source_code_unit.rs: for every scope bucket
other than Parent and Global, pair each rule with the scope query located
from the current match range and push the pair onto the front of the
queue. -/
def add_rules_to_stack (orc : Oracles) (scu : SourceCodeUnit) :
    List (String × List InstantiatedRule) → TSRange →
    List (TSQuery × InstantiatedRule) → List (TSQuery × InstantiatedRule)
  | [], _, stack => stack
  | p :: rest, range, stack =>
      if (p.1 == PARENT) || (p.1 == GLOBAL) then
        add_rules_to_stack orc scu rest range stack
      else
        add_rules_to_stack orc scu rest range
          (push_front_all
            (p.2.map (fun rule =>
              (orc.getScopeQuery scu p.1 range.start_byte range.end_byte, rule)))
            stack)

/-- The pairs one call of add_rules_to_stack pushes, in chronological push
order; the specification side of the queue-order claim. -/
def stack_pushes (orc : Oracles) (scu : SourceCodeUnit) :
    List (String × List InstantiatedRule) → TSRange → List (TSQuery × InstantiatedRule)
  | [], _ => []
  | p :: rest, range =>
      if (p.1 == PARENT) || (p.1 == GLOBAL) then stack_pushes orc scu rest range
      else
        (p.2.map (fun rule =>
          (orc.getScopeQuery scu p.1 range.start_byte range.end_byte, rule)))
          ++ stack_pushes orc scu rest range

/-- add_to_global_rules of the rule store, folded over a batch of rules:
Global-scoped successors become seed rules of the store. -/
def add_globals (st : RuleStore) (rules : List InstantiatedRule) : RuleStore :=
  RuleStore.mk (st.global_rules ++ rules)

/-- get_scope_node of source_code_unit.rs: when a scope query is supplied
and matches, the smallest node covering the first match; in every other
case the root node of the file. -/
def get_scope_node (orc : Oracles) (scu : SourceCodeUnit)
    (scope_query : Option TSQuery) : STree :=
  match scope_query with
  | some query_str =>
      match orc.getMatchForQuery scu.ast scu.code query_str true with
      | some p_match =>
          get_node_for_range scu.ast p_match.range.start_byte p_match.range.end_byte
      | none => scu.ast
  | none => scu.ast

/-- The shapes of the mutually recursive entry points of the engine:
apply_rule (the per-rule fixed point), _apply_rule (one application step),
the match-only loop body, propagate, the Parent loop of propagate, and
the loop applying the queued scoped rules. -/
inductive EngineCall where
  | applyRule (st : RuleStore) (scu : SourceCodeUnit) (rule : InstantiatedRule)
      (scope_query : Option TSQuery)
  | applyRuleStep (st : RuleStore) (scu : SourceCodeUnit) (rule : InstantiatedRule)
      (scope_query : Option TSQuery)
  | processMatches (st : RuleStore) (scu : SourceCodeUnit) (rule : InstantiatedRule)
      (ms : List PMatch)
  | propagate (st : RuleStore) (scu : SourceCodeUnit) (replace_range : TSRange)
      (rule : InstantiatedRule)
  | parentLoop (st : RuleStore) (scu : SourceCodeUnit) (range : TSRange)
      (current_rule : String) (stack : List (TSQuery × InstantiatedRule))
  | applyStack (st : RuleStore) (scu : SourceCodeUnit)
      (stack : List (TSQuery × InstantiatedRule))

/-- Result of an engine call: the updated unit and store, the flag telling
apply_rule to query again, and, for the Parent loop, the queue of scoped
rules accumulated so far. -/
structure EngineResult where
  scu : SourceCodeUnit
  st : RuleStore
  query_again : Bool
  stack : List (TSQuery × InstantiatedRule)
deriving DecidableEq, Repr

/-- The unit a call starts from, used to state engine invariants. -/
def EngineCall.scuOf : EngineCall → SourceCodeUnit
  | .applyRule _ scu _ _ => scu
  | .applyRuleStep _ scu _ _ => scu
  | .processMatches _ scu _ _ => scu
  | .propagate _ scu _ _ => scu
  | .parentLoop _ scu _ _ _ => scu
  | .applyStack _ scu _ => scu

/-- State returned unchanged when the step bound is exhausted. -/
def engineBase : EngineCall → EngineResult
  | .applyRule st scu _ _ => EngineResult.mk scu st false []
  | .applyRuleStep st scu _ _ => EngineResult.mk scu st false []
  | .processMatches st scu _ _ => EngineResult.mk scu st false []
  | .propagate st scu _ _ => EngineResult.mk scu st false []
  | .parentLoop st scu _ _ stack => EngineResult.mk scu st false stack
  | .applyStack st scu _ => EngineResult.mk scu st false []

/-- The rule application engine of source_code_unit.rs, indexed by a step
bound so that the mutual recursion of apply_rule, _apply_rule and
propagate is total; an exhausted bound returns the state unchanged.
Each shape follows its Rust function line by line:
apply_rule loops _apply_rule while the latter reports query_again;
_apply_rule resolves the scope node, and either applies the first edit of
a rewrite rule (recording it, extending the substitutions, applying the
edit and propagating from the replacement range) or records all matches
of a match-only rule, extending the substitutions and propagating an
identity replacement per match;
propagate runs the Parent loop and then applies the queued scoped rules;
the Parent loop queues non-Parent non-Global successors, seeds Global
successors, and repeatedly applies the first Parent-scoped context edit;
the stack loop re-enters apply_rule on each queued pair from the front of
the queue. -/
def engine (orc : Oracles) : Nat → EngineCall → Except String EngineResult
  | 0, c => Except.ok (engineBase c)
  | Nat.succ fuel, .applyRule st scu rule sq =>
      match engine orc fuel (.applyRuleStep st scu rule sq) with
      | Except.error e => Except.error e
      | Except.ok r =>
          if r.query_again then engine orc fuel (.applyRule r.st r.scu rule sq)
          else Except.ok (EngineResult.mk r.scu r.st false [])
  | Nat.succ fuel, .applyRuleStep st scu rule sq =>
      if rule.is_match_only_rule = false then
        match orc.getEdit scu st rule (get_scope_node orc scu sq) with
        | some edit =>
            match apply_edit orc
                { scu with
                    rewrites := scu.rewrites ++ [edit],
                    substitutions := Subst.extend scu.substitutions edit.p_match.matchesMap }
                edit with
            | Except.error e => Except.error e
            | Except.ok (applied_ts_edit, scu2) =>
                match engine orc fuel
                    (.propagate st scu2 (get_replace_range applied_ts_edit) rule) with
                | Except.error e => Except.error e
                | Except.ok r => Except.ok (EngineResult.mk r.scu r.st true [])
        | none => Except.ok (EngineResult.mk scu st false [])
      else
        match engine orc fuel
            (.processMatches st scu rule
              (orc.getMatches scu st rule (get_scope_node orc scu sq))) with
        | Except.error e => Except.error e
        | Except.ok r => Except.ok (EngineResult.mk r.scu r.st false [])
  | Nat.succ fuel, .processMatches st scu rule ms =>
      match ms with
      | [] => Except.ok (EngineResult.mk scu st false [])
      | m :: rest =>
          match engine orc fuel
              (.propagate st
                { scu with
                    matchesFound := scu.matchesFound ++ [(rule.name, m)],
                    substitutions := Subst.extend scu.substitutions m.matchesMap }
                m.range rule) with
          | Except.error e => Except.error e
          | Except.ok r => engine orc fuel (.processMatches r.st r.scu rule rest)
  | Nat.succ fuel, .propagate st scu replace_range rule =>
      match engine orc fuel (.parentLoop st scu replace_range rule.name []) with
      | Except.error e => Except.error e
      | Except.ok r => engine orc fuel (.applyStack r.st r.scu r.stack)
  | Nat.succ fuel, .parentLoop st scu range current_rule stack =>
      match orc.getEditForContext scu
          (add_globals st
            (scopesGet (orc.getNextRulesByScope current_rule scu.substitutions) GLOBAL))
          range.start_byte range.end_byte
          (scopesGet (orc.getNextRulesByScope current_rule scu.substitutions) PARENT) with
      | some edit =>
          match apply_edit orc { scu with rewrites := scu.rewrites ++ [edit] } edit with
          | Except.error e => Except.error e
          | Except.ok (applied_edit, scu2) =>
              engine orc fuel
                (.parentLoop
                  (add_globals st
                    (scopesGet (orc.getNextRulesByScope current_rule scu.substitutions)
                      GLOBAL))
                  { scu2 with
                      substitutions := Subst.extend scu2.substitutions
                        edit.p_match.matchesMap }
                  (get_replace_range applied_edit) edit.matched_rule
                  (add_rules_to_stack orc scu
                    (orc.getNextRulesByScope current_rule scu.substitutions) range stack))
      | none =>
          Except.ok (EngineResult.mk scu
            (add_globals st
              (scopesGet (orc.getNextRulesByScope current_rule scu.substitutions) GLOBAL))
            false
            (add_rules_to_stack orc scu
              (orc.getNextRulesByScope current_rule scu.substitutions) range stack))
  | Nat.succ fuel, .applyStack st scu stack =>
      match stack with
      | [] => Except.ok (EngineResult.mk scu st false [])
      | (sq, rle) :: rest =>
          match engine orc fuel (.applyRule st scu rle (some sq)) with
          | Except.error e => Except.error e
          | Except.ok r => engine orc fuel (.applyStack r.st r.scu rest)

/-- Specification-side replay of the Parent loop that returns the pairs
queued for the scoped-rule stack in chronological push order, following
the words of the spec: successors whose scope is neither Parent nor
Global are queued during each Parent-loop iteration. -/
def parentChron (orc : Oracles) : Nat → RuleStore → SourceCodeUnit → TSRange →
    String → Except String (List (TSQuery × InstantiatedRule))
  | 0, _, _, _, _ => Except.ok []
  | Nat.succ fuel, st, scu, range, current_rule =>
      match orc.getEditForContext scu
          (add_globals st
            (scopesGet (orc.getNextRulesByScope current_rule scu.substitutions) GLOBAL))
          range.start_byte range.end_byte
          (scopesGet (orc.getNextRulesByScope current_rule scu.substitutions) PARENT) with
      | some edit =>
          match apply_edit orc { scu with rewrites := scu.rewrites ++ [edit] } edit with
          | Except.error e => Except.error e
          | Except.ok (applied_edit, scu2) =>
              match parentChron orc fuel
                  (add_globals st
                    (scopesGet (orc.getNextRulesByScope current_rule scu.substitutions)
                      GLOBAL))
                  { scu2 with
                      substitutions := Subst.extend scu2.substitutions
                        edit.p_match.matchesMap }
                  (get_replace_range applied_edit) edit.matched_rule with
              | Except.error e => Except.error e
              | Except.ok rest =>
                  Except.ok
                    (stack_pushes orc scu
                      (orc.getNextRulesByScope current_rule scu.substitutions) range
                      ++ rest)
      | none =>
          Except.ok (stack_pushes orc scu
            (orc.getNextRulesByScope current_rule scu.substitutions) range)

/-- The comment-cleanup helper never drops a substitution key: the
assumption the monotonicity claim places on the oracle modelling the
_delete_associated_comment method, which only edits text and tree. -/
def preservesSubstKeys (orc : Oracles) : Prop :=
  ∀ scu edit ie scu2, orc.deleteAssociatedComment scu edit = some (ie, scu2) →
    ∀ k, Subst.hasKey scu.substitutions k = true →
      Subst.hasKey scu2.substitutions k = true

/-- Oracles for constraint evaluation over the ancestor chain of the
candidate node. A node is identified by its path of child indices from
the node up to the root, nearest index first, so the parent of a nonempty
path is its tail and the first child of a node prepends index zero.
childCount models child_count of tree-sitter. matcherHit at a path and an
interpolated matcher query models get_match_for_query of the node at that
path with recursive false being some; per the spec the root of such a
match is the node itself, so the scope located through get_node_for_range
from the match range is that node. forbiddenHit at a path and an
interpolated query models get_match_for_query of the subtree of that node
with recursive true being some. substituteTags models substitute_tags. -/
structure ConstraintOracles where
  childCount : List Nat → Nat
  matcherHit : List Nat → String → Bool
  forbiddenHit : List Nat → String → Bool
  substituteTags : String → Subst → String

/-- The ancestor walk of _is_satisfied of constraint.rs: while the
current node has a parent, test the parent against the interpolated
matcher; at the first matching parent, the constraint holds iff no
interpolated forbidden query matches inside that scope; if the walk
exhausts all ancestors the matcher never matched and the constraint
fails. -/
def constraintWalk (co : ConstraintOracles) (subs : Subst) (c : Constraint) :
    List Nat → Bool
  | [] => false
  | _ :: parentPath =>
      if co.matcherHit parentPath (co.substituteTags c.matcher subs) then
        c.queries.all (fun q => !(co.forbiddenHit parentPath (co.substituteTags q subs)))
      else constraintWalk co subs c parentPath

/-- _is_satisfied of constraint.rs: the walk starts from the first child
of the node when the node has children (so the node itself is the first
parent tested), else from the node itself. -/
def _is_satisfied (co : ConstraintOracles) (c : Constraint) (node : List Nat)
    (subs : Subst) : Bool :=
  constraintWalk co subs c (if co.childCount node > 0 then 0 :: node else node)

/-- is_satisfied of constraint.rs: the input substitutions extended with
the current substitutions of the unit, and every constraint of the rule
checked. -/
def is_satisfied (co : ConstraintOracles) (input_substitutions : Subst)
    (node : List Nat) (rule : InstantiatedRule) (substitutions : Subst) : Bool :=
  rule.constraints.all (fun c =>
    _is_satisfied co c node (Subst.extend input_substitutions substitutions))

/-- The proper ancestors of a node, nearest first, down to the root. -/
def properAncestors : List Nat → List (List Nat)
  | [] => []
  | _ :: q => q :: properAncestors q

/-- Specification side of the constraint claim: among the ancestors of
the walk start, nearest first, find the first one matching the
interpolated matcher; the constraint passes iff such a nearest ancestor
exists and no interpolated forbidden query matches within its subtree. -/
def constraintSpecPasses (co : ConstraintOracles) (subs : Subst) (c : Constraint)
    (node : List Nat) : Bool :=
  match (properAncestors (if co.childCount node > 0 then 0 :: node else node)).find?
      (fun a => co.matcherHit a (co.substituteTags c.matcher subs)) with
  | some nearest =>
      c.queries.all (fun q => !(co.forbiddenHit nearest (co.substituteTags q subs)))
  | none => false

/-! Concrete inputs used by the witnesses of the comma-absorption claims. -/

/-- Point at column b of row zero, for concrete examples. -/
def exPoint (b : Nat) : Point := Point.mk 0 b

/-- Byte range from a to b with matching points, for concrete examples. -/
def exR (a b : Nat) : TSRange := TSRange.mk a b (exPoint a) (exPoint b)

/-- Leaf node covering the bytes from a to b, for concrete examples. -/
def exLeaf (a b : Nat) : STree := STree.node (exR a b) false SForest.nil

/-- Children of the argument list of the example call f(1, 2, 3): the
parenthesis, the literals and the two commas. -/
def commaArgsForest : SForest :=
  .cons (exLeaf 1 2) (.cons (exLeaf 2 3) (.cons (exLeaf 3 4) (.cons (exLeaf 5 6)
    (.cons (exLeaf 6 7) (.cons (exLeaf 8 9) (.cons (exLeaf 9 10) .nil))))))

/-- Syntax tree of the example call f(1, 2, 3). -/
def commaAst : STree :=
  .node (exR 0 10) false
    (.cons (exLeaf 0 1) (.cons (.node (exR 1 10) false commaArgsForest) .nil))

/-- Source code unit holding the example call f(1, 2, 3). -/
def commaScu : SourceCodeUnit :=
  SourceCodeUnit.mk commaAst ("f(1, 2, 3)".data) [] [] [] false

/-- Delete edit removing the literal 2 of the example call, whose closest
following neighbor and closest preceding neighbor are both commas. -/
def commaDeleteEdit : Edit :=
  Edit.mk (PMatch.mk ("2".data) (exR 5 6) []) [] "delete_literal"

/-- Single-node tree over a one-character file, for the boundary
witnesses. -/
def tinyScu : SourceCodeUnit := SourceCodeUnit.mk (exLeaf 0 1) ("a".data) [] [] [] false

/-- Delete edit covering the whole one-character file: it starts at byte
zero and ends at the last byte. -/
def tinyEdit : Edit := Edit.mk (PMatch.mk ("a".data) (exR 0 1) []) [] "delete_all"

/-! Helper lemmas about the minimum folds. -/

/-- The fold computing the minimum only ever returns the accumulator or a
list element. -/
theorem foldl_minBy_mem (key : TSRange → Nat) (xs : List TSRange) (a : TSRange) :
    xs.foldl (fun a b => if key a < key b then a else b) a ∈ a :: xs := by
  induction xs generalizing a with
  | nil => simp
  | cons x xs ih =>
      simp only [List.foldl_cons]
      have h := ih (if key a < key x then a else x)
      rcases List.mem_cons.mp h with h1 | h1
      · rw [h1]
        by_cases hk : key a < key x <;> simp [hk]
      · simp [h1]

/-- A minimum returned by minByNat is an element of the list. -/
theorem minByNat_mem (key : TSRange → Nat) (l : List TSRange) (r : TSRange)
    (h : minByNat key l = some r) : r ∈ l := by
  cases l with
  | nil => simp [minByNat] at h
  | cons x xs =>
      simp only [minByNat, Option.some.injEq] at h
      rw [← h]
      exact foldl_minBy_mem key xs x

/-- When the checked key agrees with a pure key on the accumulator and on
every list element, the checked fold succeeds with the pure fold. -/
theorem foldlM_minStep_eq (key : TSRange → Except String Nat) (kP : TSRange → Nat)
    (xs : List TSRange) (a : TSRange)
    (ha : key a = Except.ok (kP a)) (hxs : ∀ n ∈ xs, key n = Except.ok (kP n)) :
    xs.foldlM (minStepChecked key) a
      = Except.ok (xs.foldl (fun a b => if kP a < kP b then a else b) a) := by
  induction xs generalizing a with
  | nil => rfl
  | cons x xs ih =>
      have hx : key x = Except.ok (kP x) := hxs x (by simp)
      have hxs2 : ∀ n ∈ xs, key n = Except.ok (kP n) := fun n hn => hxs n (by simp [hn])
      have hstep : minStepChecked key a x = Except.ok (if kP a < kP x then a else x) := by
        simp [minStepChecked, ha, hx]
      have ha2 : key (if kP a < kP x then a else x)
          = Except.ok (kP (if kP a < kP x then a else x)) := by
        by_cases hk : kP a < kP x <;> simp [hk, ha, hx]
      simp only [List.foldlM_cons, List.foldl_cons, hstep]
      show xs.foldlM (minStepChecked key) (if kP a < kP x then a else x) = _
      exact ih (if kP a < kP x then a else x) ha2 hxs2

/-- When the checked key is defined on every element, the checked minimum
succeeds with the pure minimum. -/
theorem minByNatChecked_eq (key : TSRange → Except String Nat) (kP : TSRange → Nat)
    (l : List TSRange) (h : ∀ n ∈ l, key n = Except.ok (kP n)) :
    minByNatChecked key l = Except.ok (minByNat kP l) := by
  cases l with
  | nil => rfl
  | cons x xs =>
      have he := foldlM_minStep_eq key kP xs x (h x (by simp))
        (fun n hn => h n (by simp [hn]))
      simp [minByNatChecked, minByNat, he]

/-- The slice up to byte zero is empty. -/
theorem sliceChars_to_zero (cs : List Char) (a : Nat) : sliceChars cs a 0 = [] := by
  simp [sliceChars, Nat.zero_sub]

/-- A range ending at byte zero never carries a comma. -/
theorem is_comma_end_zero (scu : SourceCodeUnit) (r : TSRange) (h : r.end_byte = 0) :
    scu._is_comma r = false := by
  simp [SourceCodeUnit._is_comma, h, sliceChars_to_zero, trimChars]

/-! Claim theorems about comma absorption. -/

/-- C4: for a delete edit whose closest following neighbor and closest
preceding neighbor are both commas, comma absorption widens the range on
the trailing side only: the end of the range is extended to cover the
trailing comma while the start of the range is left unchanged. -/
theorem C4_both_commas_trailing_preferred (scu : SourceCodeUnit) (edit : Edit)
    (r r' : TSRange)
    (ht : get_trailing_comma scu edit = some r)
    (_hl : get_leading_comma scu edit = some r') :
    (delete_trailing_comma scu edit).p_match.range.start_byte
        = edit.p_match.range.start_byte
    ∧ (delete_trailing_comma scu edit).p_match.range.start_point
        = edit.p_match.range.start_point
    ∧ (delete_trailing_comma scu edit).p_match.range.end_byte = r.end_byte
    ∧ (delete_trailing_comma scu edit).p_match.range.end_point = r.end_point := by
  simp [delete_trailing_comma, ht]

/-- Witness for C4 at the example call f(1, 2, 3) with the literal 2
deleted: the trailing comma at bytes six to seven is absorbed and the
leading comma at bytes three to four is ignored. -/
theorem C4_both_commas_trailing_preferred_witness :
    (delete_trailing_comma commaScu commaDeleteEdit).p_match.range.start_byte
        = commaDeleteEdit.p_match.range.start_byte
    ∧ (delete_trailing_comma commaScu commaDeleteEdit).p_match.range.start_point
        = commaDeleteEdit.p_match.range.start_point
    ∧ (delete_trailing_comma commaScu commaDeleteEdit).p_match.range.end_byte
        = (exR 6 7).end_byte
    ∧ (delete_trailing_comma commaScu commaDeleteEdit).p_match.range.end_point
        = (exR 6 7).end_point :=
  C4_both_commas_trailing_preferred commaScu commaDeleteEdit (exR 6 7) (exR 3 4)
    (by decide) (by decide)

/-- C6: for every delete edit, the edit rebuilt by comma absorption keeps
the capture map, the rule name and the replacement string of the original
edit unchanged, and its matched text is the substring of the current code
at the widened range. -/
theorem C6_rebuilt_edit_frame (scu : SourceCodeUnit) (edit : Edit)
    (_hdel : edit.is_delete = true) :
    (delete_trailing_comma scu edit).p_match.matchesMap = edit.p_match.matchesMap
    ∧ (delete_trailing_comma scu edit).matched_rule = edit.matched_rule
    ∧ (delete_trailing_comma scu edit).replacement_string = edit.replacement_string
    ∧ (delete_trailing_comma scu edit).p_match.matched_string
        = sliceChars scu.code (delete_trailing_comma scu edit).p_match.range.start_byte
            (delete_trailing_comma scu edit).p_match.range.end_byte :=
  ⟨rfl, rfl, rfl, rfl⟩

/-- Witness for C6 at the example call f(1, 2, 3) with the delete edit
removing the literal 2. -/
theorem C6_rebuilt_edit_frame_witness :
    commaDeleteEdit.is_delete = true
    ∧ ((delete_trailing_comma commaScu commaDeleteEdit).p_match.matchesMap
          = commaDeleteEdit.p_match.matchesMap
       ∧ (delete_trailing_comma commaScu commaDeleteEdit).matched_rule
          = commaDeleteEdit.matched_rule
       ∧ (delete_trailing_comma commaScu commaDeleteEdit).replacement_string
          = commaDeleteEdit.replacement_string
       ∧ (delete_trailing_comma commaScu commaDeleteEdit).p_match.matched_string
          = sliceChars commaScu.code
              (delete_trailing_comma commaScu commaDeleteEdit).p_match.range.start_byte
              (delete_trailing_comma commaScu commaDeleteEdit).p_match.range.end_byte) :=
  ⟨by decide, C6_rebuilt_edit_frame commaScu commaDeleteEdit (by decide)⟩

/-- C7: the leading-comma lookup is total and free of underflow: the
checked variant, in which every usize subtraction is guarded, always
succeeds with the value of the plain lookup, because the byte before the
deleted range is computed under an explicit zero test and the comparator
only subtracts end bytes that lie at or before the range start; moreover a
delete starting at byte zero absorbs nothing on the leading side. -/
theorem C7_leading_comma_no_underflow (scu : SourceCodeUnit) (edit : Edit) :
    get_leading_comma_checked scu edit = Except.ok (get_leading_comma scu edit)
    ∧ (edit.p_match.range.start_byte = 0 → get_leading_comma scu edit = none) := by
  constructor
  · have hpp : (if edit.p_match.range.start_byte = 0 then Except.ok 0
        else checkedSub edit.p_match.range.start_byte 1)
        = Except.ok (if edit.p_match.range.start_byte = 0 then 0
            else edit.p_match.range.start_byte - 1) := by
      by_cases h0 : edit.p_match.range.start_byte = 0
      · simp [h0]
      · simp [h0, checkedSub, Nat.one_le_iff_ne_zero.mpr h0]
    simp only [get_leading_comma_checked, get_leading_comma, hpp]
    cases hd : (descendantWithParent scu.ast edit.p_match.range.start_byte
        (if edit.p_match.range.start_byte = 0 then 0
          else edit.p_match.range.start_byte - 1)).bind (fun np => np.2) with
    | none => rfl
    | some parent_node =>
        have hkeys : ∀ n ∈ (parent_node.postOrderRanges).filter
            (fun n => decide (n.end_byte ≤ edit.p_match.range.start_byte)),
            checkedSub edit.p_match.range.start_byte n.end_byte
              = Except.ok (edit.p_match.range.start_byte - n.end_byte) := by
          intro n hn
          have h2 := (List.mem_filter.mp hn).2
          simp only [decide_eq_true_eq] at h2
          simp [checkedSub, h2]
        have hmc := minByNatChecked_eq
          (fun n => checkedSub edit.p_match.range.start_byte n.end_byte)
          (fun n => edit.p_match.range.start_byte - n.end_byte) _ hkeys
        simp only [hmc]
        cases hmin : minByNat (fun n => edit.p_match.range.start_byte - n.end_byte)
            ((parent_node.postOrderRanges).filter
              (fun n => decide (n.end_byte ≤ edit.p_match.range.start_byte))) with
        | none => rfl
        | some previous_node => rfl
  · intro h0
    simp only [get_leading_comma, h0, if_true]
    cases hd : (descendantWithParent scu.ast 0 0).bind (fun np => np.2) with
    | none => rfl
    | some parent_node =>
        cases hmin : minByNat (fun n => 0 - n.end_byte)
            ((parent_node.postOrderRanges).filter
              (fun n => decide (n.end_byte ≤ 0))) with
        | none => simp only [hmin]
        | some previous_node =>
            have hmem := minByNat_mem _ _ _ hmin
            have hend : previous_node.end_byte = 0 := by
              have h2 := (List.mem_filter.mp hmem).2
              simp only [decide_eq_true_eq] at h2
              omega
            simp only [hmin, is_comma_end_zero scu previous_node hend,
              Bool.false_eq_true, if_false]

/-- Witness for C7 at a delete covering a whole one-character file, whose
range starts at byte zero. -/
theorem C7_leading_comma_no_underflow_witness :
    get_leading_comma_checked tinyScu tinyEdit
      = Except.ok (get_leading_comma tinyScu tinyEdit)
    ∧ get_leading_comma tinyScu tinyEdit = none :=
  ⟨(C7_leading_comma_no_underflow tinyScu tinyEdit).1,
    (C7_leading_comma_no_underflow tinyScu tinyEdit).2 (by decide)⟩

/-- C8: the trailing-comma lookup is total: the checked variant, in which
the comparator subtraction is guarded, always succeeds with the value of
the plain lookup, since only nodes starting at or after the deleted end
are compared; when the descendant lookup past the deleted end finds no
node with a parent the lookup returns no comma; and whenever the lookup
returns no comma the rebuilt range is unwidened on the trailing side. -/
theorem C8_trailing_comma_total (scu : SourceCodeUnit) (edit : Edit) :
    get_trailing_comma_checked scu edit = Except.ok (get_trailing_comma scu edit)
    ∧ ((descendantWithParent scu.ast edit.p_match.range.end_byte
          (edit.p_match.range.end_byte + 1)).bind (fun np => np.2) = none →
        get_trailing_comma scu edit = none)
    ∧ (get_trailing_comma scu edit = none →
        (delete_trailing_comma scu edit).p_match.range.end_byte
            = edit.p_match.range.end_byte
        ∧ (delete_trailing_comma scu edit).p_match.range.end_point
            = edit.p_match.range.end_point) := by
  refine ⟨?_, ?_, ?_⟩
  · simp only [get_trailing_comma_checked, get_trailing_comma]
    cases hd : (descendantWithParent scu.ast edit.p_match.range.end_byte
        (edit.p_match.range.end_byte + 1)).bind (fun np => np.2) with
    | none => rfl
    | some parent_node =>
        have hkeys : ∀ n ∈ (parent_node.postOrderRanges).filter
            (fun n => decide (edit.p_match.range.end_byte ≤ n.start_byte)),
            checkedSub n.start_byte edit.p_match.range.end_byte
              = Except.ok (n.start_byte - edit.p_match.range.end_byte) := by
          intro n hn
          have h2 := (List.mem_filter.mp hn).2
          simp only [decide_eq_true_eq] at h2
          simp [checkedSub, h2]
        have hmc := minByNatChecked_eq
          (fun n => checkedSub n.start_byte edit.p_match.range.end_byte)
          (fun n => n.start_byte - edit.p_match.range.end_byte) _ hkeys
        simp only [hmc]
        cases hmin : minByNat (fun n => n.start_byte - edit.p_match.range.end_byte)
            ((parent_node.postOrderRanges).filter
              (fun n => decide (edit.p_match.range.end_byte ≤ n.start_byte))) with
        | none => rfl
        | some next_node => rfl
  · intro hd
    simp [get_trailing_comma, hd]
  · intro hnone
    simp only [delete_trailing_comma, hnone]
    cases hl : get_leading_comma scu edit with
    | none => exact ⟨rfl, rfl⟩
    | some prev_node_range => exact ⟨rfl, rfl⟩

/-- Witness for C8 at a delete covering a whole one-character file, whose
range ends at the last byte of the file, where no node exists past the
end. -/
theorem C8_trailing_comma_total_witness :
    get_trailing_comma_checked tinyScu tinyEdit
      = Except.ok (get_trailing_comma tinyScu tinyEdit)
    ∧ get_trailing_comma tinyScu tinyEdit = none
    ∧ (delete_trailing_comma tinyScu tinyEdit).p_match.range.end_byte
        = tinyEdit.p_match.range.end_byte :=
  ⟨(C8_trailing_comma_total tinyScu tinyEdit).1,
    (C8_trailing_comma_total tinyScu tinyEdit).2.1 (by decide),
    ((C8_trailing_comma_total tinyScu tinyEdit).2.2
      ((C8_trailing_comma_total tinyScu tinyEdit).2.1 (by decide))).1⟩

/-! Claim theorem about the validity gate of apply_edit. -/

/-- C2: when the tree re-parsed after splicing in an edit contains an
error node, apply_edit is fatal: it aborts with an error carrying the
corrupted text instead of returning an applied edit. -/
theorem C2_post_edit_corruption_is_fatal (orc : Oracles) (scu : SourceCodeUnit)
    (edit0 : Edit)
    (herr : (orc.parseFn (new_code_of scu edit0)).hasError = true) :
    apply_edit orc scu edit0
      = Except.error ("Produced syntactically incorrect source code "
          ++ String.mk (new_code_of scu edit0)) := by
  simp only [apply_edit]
  simp [herr]

/-- Oracle set whose parser always yields an error tree, exhibiting a rule
whose rewrite corrupts the file. -/
def corruptOrc : Oracles :=
  Oracles.mk (fun _ => STree.node (exR 0 1) true SForest.nil) (fun _ _ => none)
    (fun _ _ _ _ => none) (fun _ _ _ _ => none) (fun _ _ _ _ => [])
    (fun _ _ _ _ _ => none) (fun _ _ => []) (fun _ _ _ _ => "")

/-- Witness for C2: with a parser yielding an error tree, applying the
example delete aborts with the corrupted text in the message. -/
theorem C2_post_edit_corruption_is_fatal_witness :
    (corruptOrc.parseFn (new_code_of tinyScu tinyEdit)).hasError = true
    ∧ apply_edit corruptOrc tinyScu tinyEdit
        = Except.error ("Produced syntactically incorrect source code "
            ++ String.mk (new_code_of tinyScu tinyEdit)) :=
  ⟨by decide, C2_post_edit_corruption_is_fatal corruptOrc tinyScu tinyEdit (by decide)⟩

/-! Claim theorems about scope resolution and propagation order. -/

/-- C10: get_scope_node falls back to the root of the file both when no
scope query is supplied and when the supplied scope query has no match in
the file, so the rule is evaluated against the entire file rather than
skipped. -/
theorem C10_scope_query_root_fallback (orc : Oracles) (scu : SourceCodeUnit)
    (sq : Option TSQuery) :
    (sq = none → get_scope_node orc scu sq = scu.ast)
    ∧ (∀ q, sq = some q → orc.getMatchForQuery scu.ast scu.code q true = none →
        get_scope_node orc scu sq = scu.ast) := by
  constructor
  · intro h
    rw [h]
    rfl
  · intro q hq hnone
    rw [hq]
    simp [get_scope_node, hnone]

/-- Witness for C10: with a query engine that yields no match, the scope
node is the root for an absent query and for an unmatched query. -/
theorem C10_scope_query_root_fallback_witness :
    get_scope_node corruptOrc tinyScu none = tinyScu.ast
    ∧ get_scope_node corruptOrc tinyScu (some "(method) @m") = tinyScu.ast :=
  ⟨(C10_scope_query_root_fallback corruptOrc tinyScu none).1 rfl,
   (C10_scope_query_root_fallback corruptOrc tinyScu (some "(method) @m")).2
     "(method) @m" rfl (by decide)⟩

/-- Repeated front insertion reverses the batch onto the stack. -/
theorem push_front_all_eq (xs stack : List (TSQuery × InstantiatedRule)) :
    push_front_all xs stack = xs.reverse ++ stack := by
  induction xs generalizing stack with
  | nil => simp [push_front_all]
  | cons x rest ih =>
      simp [push_front_all, ih]

/-- One call of add_rules_to_stack prepends the reversal of its
chronological pushes. -/
theorem add_rules_to_stack_eq (orc : Oracles) (scu : SourceCodeUnit)
    (next : List (String × List InstantiatedRule)) (range : TSRange)
    (stack : List (TSQuery × InstantiatedRule)) :
    add_rules_to_stack orc scu next range stack
      = (stack_pushes orc scu next range).reverse ++ stack := by
  induction next generalizing stack with
  | nil => simp [add_rules_to_stack, stack_pushes]
  | cons p rest ih =>
      by_cases hp : ((p.1 == PARENT) || (p.1 == GLOBAL)) = true
      · simp [add_rules_to_stack, stack_pushes, hp, ih]
      · simp only [add_rules_to_stack, stack_pushes, hp, Bool.false_eq_true,
          if_false, ih, push_front_all_eq]
        simp

/-- The stack returned by the Parent loop is the chronological queue of
pushes, reversed, on top of the initial stack. -/
theorem parentLoop_stack_chron (orc : Oracles) : ∀ (fuel : Nat) (st : RuleStore)
    (scu : SourceCodeUnit) (range : TSRange) (cur : String)
    (stack0 : List (TSQuery × InstantiatedRule)) (r : EngineResult),
    engine orc fuel (EngineCall.parentLoop st scu range cur stack0) = Except.ok r →
    ∃ l, parentChron orc fuel st scu range cur = Except.ok l
      ∧ r.stack = l.reverse ++ stack0 := by
  intro fuel
  induction fuel with
  | zero =>
      intro st scu range cur stack0 r h
      simp only [engine, engineBase] at h
      cases h
      exact ⟨[], rfl, rfl⟩
  | succ fuel ih =>
      intro st scu range cur stack0 r h
      simp only [engine] at h
      cases hc : orc.getEditForContext scu
          (add_globals st
            (scopesGet (orc.getNextRulesByScope cur scu.substitutions) GLOBAL))
          range.start_byte range.end_byte
          (scopesGet (orc.getNextRulesByScope cur scu.substitutions) PARENT) with
      | none =>
          simp only [hc] at h
          cases h
          refine ⟨stack_pushes orc scu (orc.getNextRulesByScope cur scu.substitutions)
            range, ?_, ?_⟩
          · simp only [parentChron, hc]
          · exact add_rules_to_stack_eq orc scu _ range stack0
      | some edit =>
          simp only [hc] at h
          cases ha : apply_edit orc { scu with rewrites := scu.rewrites ++ [edit] }
              edit with
          | error e =>
              rw [ha] at h
              cases h
          | ok pr =>
              obtain ⟨applied_edit, scu2⟩ := pr
              rw [ha] at h
              obtain ⟨l2, hchron, hstk⟩ := ih _ _ _ _ _ _ h
              refine ⟨stack_pushes orc scu (orc.getNextRulesByScope cur scu.substitutions)
                range ++ l2, ?_, ?_⟩
              · simp only [parentChron, hc, ha, hchron]
              · rw [hstk, add_rules_to_stack_eq]
                simp

/-- C9: propagation runs the Parent loop to completion with an empty
queue, and only afterwards applies the queued Method, Class or custom
scoped successor pairs, taking them from the front of the queue; the
queue handed to that loop is exactly the reversal of the chronological
push order, so every pair queued later is applied before every pair
queued earlier. -/
theorem C9_scoped_rules_most_recent_first (orc : Oracles) (fuel : Nat)
    (st : RuleStore) (scu : SourceCodeUnit) (range : TSRange)
    (rule : InstantiatedRule) :
    engine orc (fuel + 1) (EngineCall.propagate st scu range rule)
      = (match engine orc fuel (EngineCall.parentLoop st scu range rule.name []) with
         | Except.error e => Except.error e
         | Except.ok r => engine orc fuel (EngineCall.applyStack r.st r.scu r.stack))
    ∧ (∀ r, engine orc fuel (EngineCall.parentLoop st scu range rule.name [])
          = Except.ok r →
        parentChron orc fuel st scu range rule.name = Except.ok r.stack.reverse) := by
  constructor
  · rfl
  · intro r h
    obtain ⟨l, hchron, hstk⟩ := parentLoop_stack_chron orc fuel st scu range rule.name [] r h
    rw [hchron, hstk]
    simp

/-- Witness for C9 at a run whose Parent loop stops immediately: the
chronological queue is empty, matching the reversed stack of the loop. -/
theorem C9_scoped_rules_most_recent_first_witness :
    parentChron corruptOrc 1 (RuleStore.mk []) tinyScu (exR 0 1)
        (InstantiatedRule.mk "stale_flag" true []).name
      = Except.ok ((EngineResult.mk tinyScu (RuleStore.mk []) false []).stack.reverse) :=
  (C9_scoped_rules_most_recent_first corruptOrc 1 (RuleStore.mk []) tinyScu (exR 0 1)
      (InstantiatedRule.mk "stale_flag" true [])).2
    (EngineResult.mk tinyScu (RuleStore.mk []) false []) rfl

/-! Claim theorem about monotonicity of the substitution environment. -/

/-- Lookup in an appended association list prefers the first list. -/
theorem lookup_append (t s : Subst) (k : String) :
    (t ++ s).lookup k = ((t.lookup k).orElse (fun _ => s.lookup k)) := by
  induction t with
  | nil => rfl
  | cons p rest ih =>
      obtain ⟨a, b⟩ := p
      simp only [List.cons_append, List.lookup]
      by_cases hk2 : (k == a) = true
      · simp [hk2, Option.orElse]
      · simp [hk2, ih]

/-- Extending a substitution environment keeps every present key. -/
theorem hasKey_extend (s t : Subst) (k : String) (h : Subst.hasKey s k = true) :
    Subst.hasKey (Subst.extend s t) k = true := by
  simp only [Subst.hasKey, Subst.extend] at *
  rw [lookup_append]
  cases hl : t.lookup k with
  | some v => simp [hl, Option.orElse]
  | none =>
      simp only [hl, Option.orElse]
      exact h

/-- apply_edit keeps every substitution key, given that the comment
cleanup oracle does. -/
theorem apply_edit_subst_keys (orc : Oracles) (horc : preservesSubstKeys orc)
    (scu : SourceCodeUnit) (e : Edit) (ie : InputEdit) (scu' : SourceCodeUnit)
    (h : apply_edit orc scu e = Except.ok (ie, scu'))
    (k : String) (hk : Subst.hasKey scu.substitutions k = true) :
    Subst.hasKey scu'.substitutions k = true := by
  simp only [apply_edit] at h
  split at h
  · cases h
  · split at h
    · split at h
      case _ r heq =>
        cases h
        exact horc _ _ _ _ heq k hk
      case _ heq =>
        cases h
        exact hk
    · cases h
      exact hk

/-- C3: within the processing of one file every engine step is monotonic
on the substitution map: for any call shape of the engine (the per-rule
fixed point, a rewrite application step, the match-only recording loop,
propagation, the Parent loop and the queued-scope loop), every key
present before the step is still present when the step returns, provided
the comment-cleanup collaborator keeps keys. -/
theorem C3_substitutions_monotonic (orc : Oracles) (horc : preservesSubstKeys orc) :
    ∀ (fuel : Nat) (c : EngineCall) (r : EngineResult) (k : String),
    engine orc fuel c = Except.ok r →
    Subst.hasKey c.scuOf.substitutions k = true →
    Subst.hasKey r.scu.substitutions k = true := by
  intro fuel
  induction fuel with
  | zero =>
      intro c r k h hk
      cases c <;> (simp only [engine, engineBase] at h; cases h; exact hk)
  | succ fuel ih =>
      intro c r k h hk
      cases c with
      | applyRule st scu rule sq =>
          simp only [engine] at h
          cases hs : engine orc fuel (.applyRuleStep st scu rule sq) with
          | error e =>
              simp only [hs] at h
              exact Except.noConfusion h
          | ok r1 =>
              simp only [hs] at h
              have h1 := ih _ r1 k hs hk
              by_cases hq : r1.query_again = true
              · rw [if_pos hq] at h
                exact ih _ r k h h1
              · rw [if_neg hq] at h
                cases h
                exact h1
      | applyRuleStep st scu rule sq =>
          simp only [engine] at h
          by_cases hmo : rule.is_match_only_rule = false
          · rw [if_pos hmo] at h
            cases hge : orc.getEdit scu st rule (get_scope_node orc scu sq) with
            | none =>
                simp only [hge] at h
                cases h
                exact hk
            | some edit =>
                simp only [hge] at h
                cases ha : apply_edit orc
                    ({ scu with
                        rewrites := scu.rewrites ++ [edit]
                        substitutions :=
                          Subst.extend scu.substitutions edit.p_match.matchesMap })
                    edit with
                | error e =>
                    simp only [ha] at h
                    exact Except.noConfusion h
                | ok pr =>
                    obtain ⟨applied, scu2⟩ := pr
                    simp only [ha] at h
                    cases hp : engine orc fuel
                        (.propagate st scu2 (get_replace_range applied) rule) with
                    | error e =>
                        simp only [hp] at h
                        exact Except.noConfusion h
                    | ok r2 =>
                        simp only [hp] at h
                        cases h
                        have hk1 : Subst.hasKey
                            (Subst.extend scu.substitutions edit.p_match.matchesMap) k
                            = true := hasKey_extend _ _ _ hk
                        have hk2 := apply_edit_subst_keys orc horc _ edit applied scu2
                          ha k hk1
                        exact ih _ r2 k hp hk2
          · rw [if_neg hmo] at h
            cases hpm : engine orc fuel
                (.processMatches st scu rule
                  (orc.getMatches scu st rule (get_scope_node orc scu sq))) with
            | error e =>
                simp only [hpm] at h
                exact Except.noConfusion h
            | ok r1 =>
                simp only [hpm] at h
                cases h
                exact ih _ r1 k hpm hk
      | processMatches st scu rule ms =>
          simp only [engine] at h
          cases ms with
          | nil =>
              cases h
              exact hk
          | cons m rest =>
              cases hp : engine orc fuel
                  (.propagate st
                    ({ scu with
                        matchesFound := scu.matchesFound ++ [(rule.name, m)]
                        substitutions := Subst.extend scu.substitutions m.matchesMap })
                    m.range rule) with
              | error e =>
                  simp only [hp] at h
                  exact Except.noConfusion h
              | ok r1 =>
                  simp only [hp] at h
                  have hk1 : Subst.hasKey
                      (Subst.extend scu.substitutions m.matchesMap) k = true :=
                    hasKey_extend _ _ _ hk
                  exact ih _ r k h (ih _ r1 k hp hk1)
      | propagate st scu range rule =>
          simp only [engine] at h
          cases hpl : engine orc fuel (.parentLoop st scu range rule.name []) with
          | error e =>
              simp only [hpl] at h
              exact Except.noConfusion h
          | ok r1 =>
              simp only [hpl] at h
              exact ih _ r k h (ih _ r1 k hpl hk)
      | parentLoop st scu range cur stack =>
          simp only [engine] at h
          cases hc : orc.getEditForContext scu
              (add_globals st
                (scopesGet (orc.getNextRulesByScope cur scu.substitutions) GLOBAL))
              range.start_byte range.end_byte
              (scopesGet (orc.getNextRulesByScope cur scu.substitutions) PARENT) with
          | none =>
              simp only [hc] at h
              cases h
              exact hk
          | some edit =>
              simp only [hc] at h
              cases ha : apply_edit orc ({ scu with rewrites := scu.rewrites ++ [edit] })
                  edit with
              | error e =>
                  simp only [ha] at h
                  exact Except.noConfusion h
              | ok pr =>
                  obtain ⟨applied, scu2⟩ := pr
                  simp only [ha] at h
                  have hk2 := apply_edit_subst_keys orc horc _ edit applied scu2 ha k hk
                  have hk3 : Subst.hasKey
                      (Subst.extend scu2.substitutions edit.p_match.matchesMap) k
                      = true := hasKey_extend _ _ _ hk2
                  exact ih _ r k h hk3
      | applyStack st scu stack =>
          simp only [engine] at h
          cases stack with
          | nil =>
              cases h
              exact hk
          | cons p rest =>
              obtain ⟨sq, rle⟩ := p
              cases hr : engine orc fuel (.applyRule st scu rle (some sq)) with
              | error e =>
                  simp only [hr] at h
                  exact Except.noConfusion h
              | ok r1 =>
                  simp only [hr] at h
                  exact ih _ r k h (ih _ r1 k hr hk)

/-- Unit with one pre-existing substitution key, for the monotonicity
witness. -/
def c3scu : SourceCodeUnit :=
  SourceCodeUnit.mk (exLeaf 0 2) ("ab".data) [("k", "v")] [] [] false

/-- Witness for C3: an engine run whose comment oracle never fires keeps
the pre-existing key. -/
theorem C3_substitutions_monotonic_witness :
    preservesSubstKeys corruptOrc
    ∧ Subst.hasKey
        (EngineResult.mk c3scu (RuleStore.mk []) false []).scu.substitutions "k"
        = true :=
  ⟨fun a b c d h => by simp [corruptOrc] at h,
   C3_substitutions_monotonic corruptOrc
     (fun a b c d h => by simp [corruptOrc] at h) 1
     (EngineCall.applyRule (RuleStore.mk []) c3scu
       (InstantiatedRule.mk "any_rule" true []) none)
     (EngineResult.mk c3scu (RuleStore.mk []) false []) "k" rfl (by decide)⟩

/-! Claim C5: frame of a match-only rule invocation. -/

/-- When neither a rewrite edit nor a Parent-context edit ever fires, no
engine call changes the text, the tree or the rewrite history. -/
theorem engine_no_edit_frame (orc : Oracles)
    (hge : ∀ scu st rule node, orc.getEdit scu st rule node = none)
    (hgc : ∀ scu st s e rules, orc.getEditForContext scu st s e rules = none) :
    ∀ (fuel : Nat) (c : EngineCall) (r : EngineResult),
    engine orc fuel c = Except.ok r →
    r.scu.code = c.scuOf.code ∧ r.scu.ast = c.scuOf.ast
      ∧ r.scu.rewrites = c.scuOf.rewrites := by
  intro fuel
  induction fuel with
  | zero =>
      intro c r h
      cases c <;> (simp only [engine, engineBase] at h; cases h; exact ⟨rfl, rfl, rfl⟩)
  | succ fuel ih =>
      intro c r h
      cases c with
      | applyRule st scu rule sq =>
          simp only [engine] at h
          cases hs : engine orc fuel (.applyRuleStep st scu rule sq) with
          | error e =>
              simp only [hs] at h
              exact Except.noConfusion h
          | ok r1 =>
              simp only [hs] at h
              have h1 := ih _ r1 hs
              by_cases hq : r1.query_again = true
              · rw [if_pos hq] at h
                have h2 := ih _ r h
                exact ⟨h2.1.trans h1.1, h2.2.1.trans h1.2.1, h2.2.2.trans h1.2.2⟩
              · rw [if_neg hq] at h
                cases h
                exact h1
      | applyRuleStep st scu rule sq =>
          simp only [engine] at h
          by_cases hmo : rule.is_match_only_rule = false
          · rw [if_pos hmo] at h
            simp only [hge] at h
            cases h
            exact ⟨rfl, rfl, rfl⟩
          · rw [if_neg hmo] at h
            cases hpm : engine orc fuel
                (.processMatches st scu rule
                  (orc.getMatches scu st rule (get_scope_node orc scu sq))) with
            | error e =>
                simp only [hpm] at h
                exact Except.noConfusion h
            | ok r1 =>
                simp only [hpm] at h
                cases h
                exact ih (.processMatches st scu rule
                  (orc.getMatches scu st rule (get_scope_node orc scu sq))) r1 hpm
      | processMatches st scu rule ms =>
          simp only [engine] at h
          cases ms with
          | nil =>
              cases h
              exact ⟨rfl, rfl, rfl⟩
          | cons m rest =>
              cases hp : engine orc fuel
                  (.propagate st
                    ({ scu with
                        matchesFound := scu.matchesFound ++ [(rule.name, m)]
                        substitutions := Subst.extend scu.substitutions m.matchesMap })
                    m.range rule) with
              | error e =>
                  simp only [hp] at h
                  exact Except.noConfusion h
              | ok r1 =>
                  simp only [hp] at h
                  have h1 := ih _ r1 hp
                  have h2 := ih _ r h
                  exact ⟨h2.1.trans h1.1, h2.2.1.trans h1.2.1, h2.2.2.trans h1.2.2⟩
      | propagate st scu range rule =>
          simp only [engine] at h
          cases hpl : engine orc fuel (.parentLoop st scu range rule.name []) with
          | error e =>
              simp only [hpl] at h
              exact Except.noConfusion h
          | ok r1 =>
              simp only [hpl] at h
              have h1 := ih _ r1 hpl
              have h2 := ih _ r h
              exact ⟨h2.1.trans h1.1, h2.2.1.trans h1.2.1, h2.2.2.trans h1.2.2⟩
      | parentLoop st scu range cur stack =>
          simp only [engine, hgc] at h
          cases h
          exact ⟨rfl, rfl, rfl⟩
      | applyStack st scu stack =>
          simp only [engine] at h
          cases stack with
          | nil =>
              cases h
              exact ⟨rfl, rfl, rfl⟩
          | cons p rest =>
              obtain ⟨sq, rle⟩ := p
              cases hr : engine orc fuel (.applyRule st scu rle (some sq)) with
              | error e =>
                  simp only [hr] at h
                  exact Except.noConfusion h
              | ok r1 =>
                  simp only [hr] at h
                  have h1 := ih _ r1 hr
                  have h2 := ih _ r h
                  exact ⟨h2.1.trans h1.1, h2.2.1.trans h1.2.1, h2.2.2.trans h1.2.2⟩

/-- C5 (amended): a match-only rule invocation changes the text, tree or
rewrite history only through successor edits fired during propagation;
when no successor edit fires during the invocation (neither a rewrite
edit nor a Parent-context edit is found), the text, the tree and the
rewrite history are unchanged after the invocation. -/
theorem C5_match_only_no_successor_frame (orc : Oracles)
    (hge : ∀ scu st rule node, orc.getEdit scu st rule node = none)
    (hgc : ∀ scu st s e rules, orc.getEditForContext scu st s e rules = none)
    (fuel : Nat) (st : RuleStore) (scu : SourceCodeUnit) (rule : InstantiatedRule)
    (sq : Option TSQuery) (r : EngineResult)
    (_hmo : rule.is_match_only_rule = true)
    (h : engine orc fuel (EngineCall.applyRule st scu rule sq) = Except.ok r) :
    r.scu.code = scu.code ∧ r.scu.ast = scu.ast ∧ r.scu.rewrites = scu.rewrites :=
  engine_no_edit_frame orc hge hgc fuel _ r h

/-- Witness for the amended C5 at a run whose oracles never produce an
edit. -/
theorem C5_match_only_no_successor_frame_witness :
    (InstantiatedRule.mk "match_only_probe" true []).is_match_only_rule = true
    ∧ ((EngineResult.mk c3scu (RuleStore.mk []) false []).scu.code = c3scu.code
       ∧ (EngineResult.mk c3scu (RuleStore.mk []) false []).scu.ast = c3scu.ast
       ∧ (EngineResult.mk c3scu (RuleStore.mk []) false []).scu.rewrites
          = c3scu.rewrites) :=
  ⟨rfl, C5_match_only_no_successor_frame corruptOrc (fun _ _ _ _ => rfl)
    (fun _ _ _ _ _ => rfl) 1 (RuleStore.mk []) c3scu
    (InstantiatedRule.mk "match_only_probe" true []) none
    (EngineResult.mk c3scu (RuleStore.mk []) false []) rfl rfl⟩

/-- Match-only rule of the counterexample to C5 as stated. -/
def c5rule : InstantiatedRule := InstantiatedRule.mk "find_flag" true []

/-- Parent-scoped rewrite successor of the counterexample. -/
def c5parentRule : InstantiatedRule := InstantiatedRule.mk "fix_parent" false []

/-- Edit the Parent-scoped successor applies during propagation. -/
def c5edit : Edit := Edit.mk (PMatch.mk ("a".data) (exR 0 1) []) ("x".data) "fix_parent"

/-- Match recorded by the match-only rule of the counterexample. -/
def c5m : PMatch := PMatch.mk ("a".data) (exR 0 1) []

/-- Unit of the counterexample before the invocation. -/
def c5scu : SourceCodeUnit := SourceCodeUnit.mk (exLeaf 0 2) ("ab".data) [] [] [] false

/-- Oracle set of the counterexample: the match-only rule has one match
and one Parent-scoped successor whose context edit fires once. -/
def c5orc : Oracles :=
  Oracles.mk (fun _ => exLeaf 0 2) (fun _ _ => none) (fun _ _ _ _ => none)
    (fun _ _ _ _ => none)
    (fun _ _ rule _ => if rule.name == "find_flag" then [c5m] else [])
    (fun _ _ _ _ rules => if rules.isEmpty then none else some c5edit)
    (fun rname _ =>
      if rname == "find_flag" then [(PARENT, [c5parentRule]), (GLOBAL, [])]
      else [(PARENT, []), (GLOBAL, [])])
    (fun _ _ _ _ => "")

/-- The counterexample run: one invocation of the match-only rule. -/
def c5run : Except String EngineResult :=
  engine c5orc 8 (EngineCall.applyRule (RuleStore.mk []) c5scu c5rule none)

/-- Counterexample to C5 as stated: an invocation of a match-only rule
whose Parent-scoped successor fires does change the text and the rewrite
history of the unit, because propagation applies the successor edit
inside the invocation. -/
theorem C5_match_only_counterexample :
    c5rule.is_match_only_rule = true
    ∧ c5run.toOption.map (fun r => r.scu.rewrites.length) = some 1
    ∧ c5scu.rewrites.length = 0
    ∧ c5run.toOption.map (fun r => r.scu.code) = some ("xb".data)
    ∧ c5scu.code = "ab".data
    ∧ ("xb".data ≠ "ab".data) :=
  ⟨rfl, rfl, rfl, rfl, rfl, by decide⟩

/-! Claim theorem about constraint evaluation. -/

/-- The ancestor walk agrees with the nearest-first search over the list
of proper ancestors. -/
theorem constraintWalk_eq_find (co : ConstraintOracles) (subs : Subst)
    (c : Constraint) : ∀ p : List Nat,
    constraintWalk co subs c p
      = (match (properAncestors p).find?
            (fun a => co.matcherHit a (co.substituteTags c.matcher subs)) with
        | some nearest =>
            c.queries.all (fun q => !(co.forbiddenHit nearest (co.substituteTags q subs)))
        | none => false) := by
  intro p
  induction p with
  | nil => rfl
  | cons i q ih =>
      simp only [constraintWalk, properAncestors]
      by_cases hm : co.matcherHit q (co.substituteTags c.matcher subs) = true
      · simp [List.find?_cons, hm]
      · have hm2 : co.matcherHit q (co.substituteTags c.matcher subs) = false := by
          revert hm
          cases co.matcherHit q (co.substituteTags c.matcher subs) <;> simp
        simp [List.find?_cons, hm2, ih]

/-- C1: is_satisfied holds exactly when every constraint of the rule
passes, where a constraint passes exactly when the walk over the
ancestors of the candidate node (started from the first child when the
node has children, else from the node itself, so that the node itself is
the first ancestor tested in the former case) finds a nearest ancestor
matching the interpolated matcher and no interpolated forbidden query
matches within that scope; if no ancestor matches, the constraint is
unsatisfied, and only the first matching ancestor is ever examined. -/
theorem C1_is_satisfied_ancestor_spec (co : ConstraintOracles)
    (input_substitutions : Subst) (node : List Nat) (rule : InstantiatedRule)
    (substitutions : Subst) :
    is_satisfied co input_substitutions node rule substitutions
      = rule.constraints.all (fun c =>
          constraintSpecPasses co (Subst.extend input_substitutions substitutions)
            c node) := by
  simp only [is_satisfied, _is_satisfied, constraintSpecPasses]
  exact congrArg rule.constraints.all
    (funext fun c => constraintWalk_eq_find co _ c _)

end Piranha
